/-
Verification of the VieTTS flask_app.py synthesis core against its
natural-language specification.

Shallow embedding:
* `JobRecord` mirrors the per-job dictionary created in `synthesize`
  (src/flask_app.py lines 194-199).  The `cancelled` field does NOT exist in
  the source; it is modelled from the spec (section 4.4) solely so that the
  cancellation claims can be stated; the embedded code never reads it,
  exactly as the Python code has no such reads.
* `Env` is the oracle for the external collaborators (`tts.encode_reference`,
  `tts.get_preset_voice`, `tts.infer`, `split_text_into_chunks`,
  `join_audio_chunks`, `sf.write`) and for the queue-full outcomes of the
  bounded `queue.Queue.put` calls.
* `run_synthesis` is the worker `_run_synthesis` (lines 268-368), emitting an
  event trace: status writes, successful queue pushes, dropped pushes
  (a `put` that raised `queue.Full` after its timeout), the temp-file unlink,
  inference calls, counter writes, and the admission release in `finally`.
* `submit` is the endpoint `synthesize` (lines 149-211) run without
  interleaving; `stepAt`/`runSched` is the same endpoint cut at the
  boundaries of its two `with active_lock:` blocks so that the interleaving
  of two concurrent requests can be examined.
-/
import Mathlib

namespace VieTTS

/-- Job status strings used by flask_app.py: "pending", "processing",
"done", "error". -/
inductive Status
  | pending
  | processing
  | done
  | error
deriving DecidableEq, Repr

/-- Observable events of one worker run (writes to the shared job record,
queue operations of the job's `pcm_queue`, the temp-file unlink, calls to
`tts.infer`, and the admission release in the `finally` block). -/
inductive Ev
  | statusW (s : Status)
  | pushPcm (seg : List ℤ)
  | pushSilence (samples : ℕ)
  | pushEnd
  | dropPcm
  | dropSilence
  | dropEnd
  | unlinkTemp
  | inferCall (i : ℕ)
  | chunksDoneW (i : ℕ)
  | chunksTotalW (n : ℕ)
  | audioPathW
  | release
deriving DecidableEq, Repr

/-- The per-job dictionary `jobs[job_id]` (flask_app.py lines 194-199).
`audio_path` is abstracted to whether it has been set.  `cancelled` is
modelled from the spec (section 4.4): flask_app.py has no such field and
never reads one — it is present only so the cancellation claims can be
stated against the code. -/
structure JobRecord where
  status : Status
  progress : String
  audio_path : Bool
  error : Option String
  chunks_total : ℕ
  chunks_done : ℕ
  cancelled : Bool
deriving DecidableEq, Repr

/-- The record inserted by `synthesize` on admission (lines 194-199). -/
def initJob : JobRecord :=
  { status := Status.pending
    progress := "Queued"
    audio_path := false
    error := Option.none
    chunks_total := 0
    chunks_done := 0
    cancelled := false }

/-- Outcome of one `tts.infer` call for one text fragment: either the call
raises, or it returns a (possibly empty) normalized float waveform, modelled
with rational samples. -/
inductive InferResult
  | raises
  | wav (samples : List ℚ)
deriving DecidableEq

/-- How the reference voice is resolved (lines 281-298): an uploaded
reference-audio file whose `tts.encode_reference` call may raise, a preset
voice id whose `tts.get_preset_voice` call may raise, or no reference. -/
inductive RefSource
  | upload (encode_fails : Bool)
  | preset (lookup_fails : Bool)
  | noRef
deriving DecidableEq

/-- Oracle for one worker run: the reference resolution outcome, the chunker
output paired with each fragment's `tts.infer` outcome, whether
`join_audio_chunks` / `sf.write` raise, and which `put` attempts (numbered
from 0 in program order) time out with `queue.Full`. -/
structure Env where
  ref_source : RefSource
  frags : List InferResult
  join_fails : Bool
  persist_fails : Bool
  full_at : List Bool
deriving DecidableEq

/-- Whether the k-th `put` attempt of this run times out (queue full). -/
def isFull (e : Env) (k : ℕ) : Bool := e.full_at.getD k false

/-- numpy `.clip(lo, hi)`: `min (max x lo) hi`. -/
def clip (x lo hi : ℚ) : ℚ := min (max x lo) hi

/-- numpy `.astype(np.int16)` on an in-range float: truncation toward 0,
i.e. floor for non-negative values and ceiling for negative ones. -/
def truncToInt (x : ℚ) : ℤ := if 0 ≤ x then ⌊x⌋ else ⌈x⌉

/-- Line 321: `(chunk_wav * 32767).clip(-32768, 32767).astype(np.int16)`,
per sample. -/
def pcm16 (x : ℚ) : ℤ := truncToInt (clip (x * 32767) (-32768) 32767)

/-- One fragment waveform converted to int16 PCM samples. -/
def pcmSeg (w : List ℚ) : List ℤ := w.map pcm16

/-- Line 328: `int(0.15 * tts.sample_rate)` samples of silence. -/
def silence_len (sr : ℕ) : ℕ := 15 * sr / 100

/-- `job["pcm_queue"].put(pcm_int16.tobytes(), timeout=10)` with
`except queue.Full: pass` (lines 322-325). -/
def putPcmEv (e : Env) (k : ℕ) (seg : List ℤ) : Ev :=
  if isFull e k then Ev.dropPcm else Ev.pushPcm seg

/-- `job["pcm_queue"].put(silence.tobytes(), timeout=5)` with
`except queue.Full: pass` (lines 329-332). -/
def putSilenceEv (e : Env) (k : ℕ) (samples : ℕ) : Ev :=
  if isFull e k then Ev.dropSilence else Ev.pushSilence samples

/-- `job["pcm_queue"].put(None, timeout=…)` with the exception swallowed
(lines 335-338 and 361-364). -/
def putEndEv (e : Env) (k : ℕ) : Ev :=
  if isFull e k then Ev.dropEnd else Ev.pushEnd

/-- Reference resolution (lines 278-298).  Returns the updated record, the
events emitted, and `some msg` if the external call raised.  On the upload
path the temp file is unlinked only after `encode_reference` returns
(line 289); if the call raises, control jumps to the `except` handler and no
unlink happens. -/
def refPhase (e : Env) (j : JobRecord) : JobRecord × List Ev × Option String :=
  match e.ref_source with
  | RefSource.upload b =>
      let j := { j with progress := "Encoding reference audio..." }
      if b then (j, [], some "encode failed")
      else (j, [Ev.unlinkTemp], Option.none)
  | RefSource.preset b =>
      let j := { j with progress := "Loading preset voice..." }
      if b then (j, [], some "lookup failed")
      else (j, [], Option.none)
  | RefSource.noRef => (j, [], Option.none)

/-- The `except Exception as e:` handler (lines 357-364): set status
`"error"`, record the message, then best-effort push of the end marker. -/
def exceptEvents (e : Env) (k : ℕ) (msg : String) (j : JobRecord) :
    JobRecord × List Ev :=
  let j := { j with status := Status.error, error := some msg }
  (j, [Ev.statusW Status.error, putEndEv e k])

/-- Result of the per-fragment loop (lines 309-332): the events it emitted,
the accumulated `all_wavs`, the next put-attempt number, the job record as
the loop left it, and `some msg` if a `tts.infer` call raised. -/
structure LoopOut where
  tr : List Ev
  wavs : List (List ℚ)
  k : ℕ
  j : JobRecord
  err : Option String
deriving DecidableEq

/-- The per-fragment loop `for i, chunk in enumerate(chunks, 1):`
(lines 309-332).  `i` is the 1-based fragment index, `total` is
`len(chunks)`, `k` numbers the put attempts.  A fragment whose waveform is
`None` or empty is skipped entirely (no counter write, no push, no silence);
the 0.15 s silence is pushed inside the non-empty branch and only when
`i < total`. -/
def synthLoop (sr total : ℕ) (e : Env) :
    ℕ → ℕ → JobRecord → List InferResult → LoopOut
  | _, k, j, [] => ⟨[], [], k, j, Option.none⟩
  | i, k, j, f :: fs =>
    let j := { j with progress :=
      "Generating chunk " ++ toString i ++ "/" ++ toString total ++ "..." }
    match f with
    | InferResult.raises => ⟨[Ev.inferCall i], [], k, j, some "infer failed"⟩
    | InferResult.wav w =>
      if w = [] then
        let r := synthLoop sr total e (i + 1) k j fs
        ⟨Ev.inferCall i :: r.tr, r.wavs, r.k, r.j, r.err⟩
      else
        let j := { j with chunks_done := i }
        let ev1 := putPcmEv e k (pcmSeg w)
        let (ev2, k2) :=
          if i < total then ([putSilenceEv e (k + 1) (silence_len sr)], k + 2)
          else ([], k + 1)
        let r := synthLoop sr total e (i + 1) k2 j fs
        ⟨Ev.inferCall i :: Ev.chunksDoneW i :: (ev1 :: ev2 ++ r.tr),
         w :: r.wavs, r.k, r.j, r.err⟩

/-- Lines 334-356 plus the reach of the `except` handler for a failure
raised inside the loop or after it: the first end-marker push, the
no-audio check, joining, persisting, and the final record updates.  `r` is
what the per-fragment loop produced. -/
def afterLoop (e : Env) (total : ℕ) (r : LoopOut) : JobRecord × List Ev :=
  match r.err with
  | some msg => exceptEvents e r.k msg r.j
  | Option.none =>
      let endEv := putEndEv e r.k
      if r.wavs = [] then
        ({ r.j with status := Status.error, error := some "No audio generated" },
         [endEv, Ev.statusW Status.error])
      else
        let j5 := { r.j with progress :=
          "Joining " ++ toString total ++ " chunks..." }
        if e.join_fails then
          let (j6, exEv) := exceptEvents e (r.k + 1) "join failed" j5
          (j6, endEv :: exEv)
        else if e.persist_fails then
          let (j6, exEv) := exceptEvents e (r.k + 1) "persist failed" j5
          (j6, endEv :: exEv)
        else
          ({ j5 with audio_path := true, status := Status.done,
                     progress := "Done — " ++ toString total ++ " chunks" },
           [endEv, Ev.audioPathW, Ev.statusW Status.done])

/-- `_run_synthesis` (lines 268-368), from the `job["status"] = "processing"`
write through the `finally` release, for a job whose record at worker start
is `j0`.  Returns the final record and the event trace. -/
def run_synthesis (sr : ℕ) (e : Env) (j0 : JobRecord) : JobRecord × List Ev :=
  let j1 := { j0 with status := Status.processing }
  let tr0 : List Ev := [Ev.statusW Status.processing]
  match refPhase e j1 with
  | (j2, refEv, some msg) =>
      let (j3, exEv) := exceptEvents e 0 msg j2
      (j3, tr0 ++ refEv ++ exEv ++ [Ev.release])
  | (j2, refEv, Option.none) =>
      let total := e.frags.length
      let j3 := { j2 with chunks_total := total }
      let r := synthLoop sr total e 1 0 j3 e.frags
      let (j4, postEv) := afterLoop e total r
      (j4, tr0 ++ refEv ++ [Ev.chunksTotalW total] ++ r.tr ++ postEv ++ [Ev.release])

/-! ## The submission endpoint and the admission slot

`synthesize` (flask_app.py lines 149-211).  Global state: the `jobs` map
(modelled as an association list in insertion order), `active_job_id`, and
`model_loaded`.  Job ids are naturals (`uuid.uuid4()` only needs freshness,
which `next_id` provides). -/

/-- A parsed synthesis request, after `.strip()` of the text. -/
structure Request where
  text : String
  voice_id : String
  has_ref_audio : Bool
deriving DecidableEq

/-- Global server state touched by `synthesize`. -/
structure ServerState where
  model_loaded : Bool
  jobs : List (ℕ × JobRecord)
  active_job_id : Option ℕ
  next_id : ℕ
deriving DecidableEq

/-- `jobs.get(job_id)`. -/
def lookupJob (jobs : List (ℕ × JobRecord)) (i : ℕ) : Option JobRecord :=
  match jobs with
  | [] => Option.none
  | p :: ps => if p.1 = i then some p.2 else lookupJob ps i

/-- The body of the first `with active_lock:` block (lines 157-165):
`some progress` when the active-slot job exists and is `"pending"` or
`"processing"` (the busy response carries `job.get("progress", "")`),
otherwise `none`.  A dangling slot id whose record is missing is not busy
(`jobs.get(active_job_id, {})`). -/
def busyCheck (jobs : List (ℕ × JobRecord)) (act : Option ℕ) : Option String :=
  match act with
  | Option.none => Option.none
  | some i =>
    match lookupJob jobs i with
    | Option.none => Option.none
    | some j =>
      if j.status = Status.pending ∨ j.status = Status.processing
      then some j.progress else Option.none

/-- Result of one `POST /api/synthesize`. -/
inductive SubmitResult
  | notLoaded
  | busy (progress : String)
  | emptyText
  | accepted (id : ℕ)
deriving DecidableEq

/-- The whole `synthesize` endpoint (lines 149-211) executed without
interleaving: model-loaded check, busy check, text validation (the voice id
is never validated), record insertion as `"pending"`, slot assignment. -/
def submit (s : ServerState) (req : Request) : ServerState × SubmitResult :=
  if s.model_loaded = false then (s, SubmitResult.notLoaded)
  else
    match busyCheck s.jobs s.active_job_id with
    | some p => (s, SubmitResult.busy p)
    | Option.none =>
      if req.text = "" then (s, SubmitResult.emptyText)
      else
        let id := s.next_id
        ({ s with jobs := s.jobs ++ [(id, initJob)],
                  active_job_id := some id,
                  next_id := id + 1 },
         SubmitResult.accepted id)

/-- Replace the record stored under key `i`. -/
def updateJob (jobs : List (ℕ × JobRecord)) (i : ℕ) (j : JobRecord) :
    List (ℕ × JobRecord) :=
  jobs.map fun p => if p.1 = i then (p.1, j) else p

/-- The effect of job `i`'s worker thread having run to completion: its
record is mutated by `_run_synthesis` and the `finally` block clears
`active_job_id` iff it still equals this job's id (lines 365-368). -/
def finishJob (s : ServerState) (i : ℕ) (sr : ℕ) (e : Env) : ServerState :=
  match lookupJob s.jobs i with
  | Option.none => s
  | some j =>
    { s with jobs := updateJob s.jobs i (run_synthesis sr e j).1,
             active_job_id :=
               if s.active_job_id = some i then Option.none else s.active_job_id }

/-! ## Interleaved submissions

`synthesize` takes `active_lock` twice: once for the busy check
(lines 157-165) and once to set the slot (lines 201-202); the record is
inserted between the two (line 194).  The flask dev server handles requests
on concurrent threads, so two submissions can interleave at these
boundaries.  Each thread below runs the admitted path of `synthesize` in
three atomic steps: busy check, record insertion, slot assignment. -/

/-- One in-flight submission request thread: its job id, its program
counter (0 = before the busy check, 1 = before the record insertion,
2 = before the slot assignment, 3 = finished) and its response. -/
structure SubThread where
  tid : ℕ
  pc : ℕ
  res : Option SubmitResult
deriving DecidableEq

/-- Shared state plus the in-flight submission threads. -/
structure ConcState where
  jobs : List (ℕ × JobRecord)
  active_job_id : Option ℕ
  threads : List SubThread
deriving DecidableEq

/-- One atomic step of one submission thread. -/
def stepThread (jobs : List (ℕ × JobRecord)) (act : Option ℕ)
    (t : SubThread) : List (ℕ × JobRecord) × Option ℕ × SubThread :=
  match t.pc with
  | 0 =>
    match busyCheck jobs act with
    | some p => (jobs, act, { t with pc := 3, res := some (SubmitResult.busy p) })
    | Option.none => (jobs, act, { t with pc := 1 })
  | 1 => (jobs ++ [(t.tid, initJob)], act, { t with pc := 2 })
  | 2 => (jobs, some t.tid,
          { t with pc := 3, res := some (SubmitResult.accepted t.tid) })
  | _ => (jobs, act, t)

/-- Run one step of the thread at position `n` of the thread list. -/
def stepAt (s : ConcState) (n : ℕ) : ConcState :=
  match s.threads.get? n with
  | Option.none => s
  | some t =>
    let (jobs, act, t') := stepThread s.jobs s.active_job_id t
    { jobs := jobs, active_job_id := act, threads := s.threads.set n t' }

/-- Run a schedule: at each instant the named thread takes one step. -/
def runSched (s : ConcState) : List ℕ → ConcState
  | [] => s
  | n :: ns => runSched (stepAt s n) ns

/-- Whether a record counts as active: status `"pending"` or
`"processing"` (spec section on the admission slot). -/
def isActiveRec (j : JobRecord) : Bool :=
  match j.status with
  | Status.pending => true
  | Status.processing => true
  | _ => false

/-- Number of jobs in the registry whose status is `"pending"` or
`"processing"`. -/
def activeCount (jobs : List (ℕ × JobRecord)) : ℕ :=
  jobs.countP fun p => isActiveRec p.2

/-- The single-active-job invariant claimed by the spec, together with the
bookkeeping facts that make it inductive: at most one registered job is
active, any active job's id sits in the admission slot, the registry keys
are distinct, and `next_id` is fresh. -/
def AdmissionInv (s : ServerState) : Prop :=
  activeCount s.jobs ≤ 1 ∧
  (∀ p ∈ s.jobs,
    (p.2.status = Status.pending ∨ p.2.status = Status.processing) →
    s.active_job_id = some p.1) ∧
  (s.jobs.map Prod.fst).Nodup ∧
  (∀ p ∈ s.jobs, p.1 < s.next_id)

/-- Two concurrently submitted requests, neither yet started. -/
def twoSubmitInit : ConcState :=
  ⟨[], Option.none, [⟨0, 0, Option.none⟩, ⟨1, 0, Option.none⟩]⟩

/-! ## Projections of a worker trace and of an environment -/

/-- Extract a status write. -/
def evStatus : Ev → Option Status
  | Ev.statusW s => some s
  | _ => Option.none

/-- The sequence of status values written, in order. -/
def statusWrites (tr : List Ev) : List Status := tr.filterMap evStatus

/-- Whether an event is a successful push onto the job's `pcm_queue`. -/
def isPushEv : Ev → Bool
  | Ev.pushPcm _ => true
  | Ev.pushSilence _ => true
  | Ev.pushEnd => true
  | _ => false

/-- The subsequence of segments that actually entered the queue. -/
def pushes (tr : List Ev) : List Ev := tr.filter fun ev => isPushEv ev

/-- Whether an event is a `put(None, …)` attempt (pushed or timed out). -/
def isEndAttempt : Ev → Bool
  | Ev.pushEnd => true
  | Ev.dropEnd => true
  | _ => false

/-- Number of end-marker put attempts in a trace. -/
def endAttempts (tr : List Ev) : ℕ := tr.countP fun ev => isEndAttempt ev

/-- Whether an event is a call to `tts.infer`. -/
def isInferEv : Ev → Bool
  | Ev.inferCall _ => true
  | _ => false

/-- Number of `tts.infer` calls in a trace. -/
def inferCount (tr : List Ev) : ℕ := tr.countP fun ev => isInferEv ev

/-- Whether reference resolution raises in this environment. -/
def refRaises (e : Env) : Bool :=
  match e.ref_source with
  | RefSource.upload b => b
  | RefSource.preset b => b
  | RefSource.noRef => false

/-- Whether a fragment's `tts.infer` call returns (rather than raises). -/
def isWavB : InferResult → Bool
  | InferResult.raises => false
  | InferResult.wav _ => true

/-- Whether a fragment's `tts.infer` call returns a non-empty waveform. -/
def nonEmptyWavB : InferResult → Bool
  | InferResult.raises => false
  | InferResult.wav w => !w.isEmpty

/-- Number of fragments for which `tts.infer` is actually called: the loop
stops at (and including) the first raising fragment. -/
def inferAttempts : List InferResult → ℕ
  | [] => 0
  | InferResult.raises :: _ => 1
  | InferResult.wav _ :: fs => 1 + inferAttempts fs

/-- Whether the run reaches `join_audio_chunks` (after the first end-marker
push) and then fails, which makes the `except` handler push the end marker a
second time. -/
def doubleEnd (e : Env) : Bool :=
  !refRaises e && e.frags.all isWavB && e.frags.any nonEmptyWavB &&
    (e.join_fails || e.persist_fails)

/-- The data segments the loop offers to the queue for a fragment list that
raises nowhere and has only non-empty waveforms: each fragment's PCM, with
one silence gap between consecutive fragments and none after the last. -/
def expPush (sr : ℕ) : List InferResult → List Ev
  | [] => []
  | InferResult.raises :: _ => []
  | InferResult.wav w :: fs =>
    Ev.pushPcm (pcmSeg w) ::
      (if fs = [] then [] else Ev.pushSilence (silence_len sr) :: expPush sr fs)

/-- 1-based index of the last fragment with a non-empty waveform before the
first raising fragment, `acc` if there is none; `i` is the index of the
first list element. -/
def lastNonEmptyAux : ℕ → ℕ → List InferResult → ℕ
  | _, acc, [] => acc
  | _, acc, InferResult.raises :: _ => acc
  | i, acc, InferResult.wav w :: fs =>
    lastNonEmptyAux (i + 1) (if w = [] then acc else i) fs

/-- 1-based index of the last fragment with a non-empty waveform, 0 if none. -/
def lastNonEmpty (fs : List InferResult) : ℕ := lastNonEmptyAux 1 0 fs

/-- `all_wavs` for a fragment list that raises nowhere: the non-empty
waveforms in order. -/
def collectWavs : List InferResult → List (List ℚ)
  | [] => []
  | InferResult.raises :: _ => []
  | InferResult.wav w :: fs =>
    if w = [] then collectWavs fs else w :: collectWavs fs

/-- No `put` attempt of this run times out. -/
def noDrop (e : Env) : Prop := ∀ b ∈ e.full_at, b = false

/-! ## Decomposition of a whole worker run -/

/-- The job record as it enters the per-fragment loop: after the
`"processing"` write, the reference-phase progress update, and the
`chunks_total` write. -/
def jAfterRef (e : Env) (j0 : JobRecord) : JobRecord :=
  match e.ref_source with
  | RefSource.upload _ =>
      { j0 with status := Status.processing,
                progress := "Encoding reference audio...",
                chunks_total := e.frags.length }
  | RefSource.preset _ =>
      { j0 with status := Status.processing,
                progress := "Loading preset voice...",
                chunks_total := e.frags.length }
  | RefSource.noRef =>
      { j0 with status := Status.processing,
                chunks_total := e.frags.length }

/-- The events of the reference phase when it does not raise. -/
def refEvs (e : Env) : List Ev :=
  match e.ref_source with
  | RefSource.upload false => [Ev.unlinkTemp]
  | _ => []

/-- The per-fragment loop of one worker run. -/
def loopRun (sr : ℕ) (e : Env) (j0 : JobRecord) : LoopOut :=
  synthLoop sr e.frags.length e 1 0 (jAfterRef e j0) e.frags

/-! ## Lemmas about the per-fragment loop -/

/-- The events the per-fragment loop can emit. -/
def loopEv : Ev → Bool
  | Ev.inferCall _ => true
  | Ev.chunksDoneW _ => true
  | Ev.pushPcm _ => true
  | Ev.pushSilence _ => true
  | Ev.dropPcm => true
  | Ev.dropSilence => true
  | _ => false

theorem noDrop_isFull {e : Env} (h : noDrop e) (k : ℕ) : isFull e k = false := by
  unfold isFull
  rw [List.getD_eq_getElem?_getD]
  rcases hg : e.full_at[k]? with _ | b
  · rfl
  · exact h b (List.getElem?_mem hg)

theorem loopEv_putPcm (e : Env) (k : ℕ) (seg : List ℤ) :
    loopEv (putPcmEv e k seg) = true := by
  unfold putPcmEv; split <;> rfl

theorem loopEv_putSilence (e : Env) (k n : ℕ) :
    loopEv (putSilenceEv e k n) = true := by
  unfold putSilenceEv; split <;> rfl

theorem synthLoop_mem (sr total : ℕ) (e : Env) :
    ∀ (fs : List InferResult) (i k : ℕ) (j : JobRecord),
      ∀ ev ∈ (synthLoop sr total e i k j fs).tr, loopEv ev = true := by
  intro fs
  induction fs with
  | nil => intro i k j ev hev; simp [synthLoop] at hev
  | cons f fs ih =>
    intro i k j ev hev
    match f with
    | InferResult.raises =>
      simp [synthLoop] at hev
      subst hev; rfl
    | InferResult.wav w =>
      by_cases hw : w = []
      · simp [synthLoop, hw] at hev
        rcases hev with hev | hev
        · subst hev; rfl
        · exact ih _ _ _ ev hev
      · by_cases hi : i < total <;>
          simp [synthLoop, hw, hi] at hev <;>
          rcases hev with hev | hev | hev | hev
        · subst hev; rfl
        · subst hev; rfl
        · subst hev; exact loopEv_putPcm e k (pcmSeg w)
        · rcases hev with hev | hev
          · subst hev; exact loopEv_putSilence e (k + 1) (silence_len sr)
          · exact ih _ _ _ ev hev
        · subst hev; rfl
        · subst hev; rfl
        · subst hev; exact loopEv_putPcm e k (pcmSeg w)
        · exact ih _ _ _ ev hev

theorem loopEv_evStatus {ev : Ev} (h : loopEv ev = true) :
    evStatus ev = Option.none := by
  cases ev <;> simp_all [loopEv, evStatus]

theorem loopEv_not_endAttempt {ev : Ev} (h : loopEv ev = true) :
    isEndAttempt ev = false := by
  cases ev <;> simp_all [loopEv, isEndAttempt]

theorem statusWrites_loop (sr total : ℕ) (e : Env) (fs : List InferResult)
    (i k : ℕ) (j : JobRecord) :
    statusWrites (synthLoop sr total e i k j fs).tr = [] := by
  unfold statusWrites
  rw [List.filterMap_eq_nil_iff]
  intro ev hev
  exact loopEv_evStatus (synthLoop_mem sr total e fs i k j ev hev)

theorem endAttempts_loop (sr total : ℕ) (e : Env) (fs : List InferResult)
    (i k : ℕ) (j : JobRecord) :
    endAttempts (synthLoop sr total e i k j fs).tr = 0 := by
  unfold endAttempts
  rw [List.countP_eq_zero]
  intro ev hev
  simp [loopEv_not_endAttempt (synthLoop_mem sr total e fs i k j ev hev)]

theorem synthLoop_j (sr total : ℕ) (e : Env) :
    ∀ (fs : List InferResult) (i k : ℕ) (j : JobRecord),
      (synthLoop sr total e i k j fs).j.status = j.status ∧
      (synthLoop sr total e i k j fs).j.chunks_total = j.chunks_total ∧
      (synthLoop sr total e i k j fs).j.cancelled = j.cancelled ∧
      (synthLoop sr total e i k j fs).j.audio_path = j.audio_path ∧
      (synthLoop sr total e i k j fs).j.error = j.error ∧
      (synthLoop sr total e i k j fs).j.chunks_done =
        lastNonEmptyAux i j.chunks_done fs := by
  intro fs
  induction fs with
  | nil => intro i k j; simp [synthLoop, lastNonEmptyAux]
  | cons f fs ih =>
    intro i k j
    match f with
    | InferResult.raises => simp [synthLoop, lastNonEmptyAux]
    | InferResult.wav w =>
      by_cases hw : w = []
      · simpa [synthLoop, hw, lastNonEmptyAux] using ih (i + 1) k _
      · by_cases hi : i < total <;>
          simpa [synthLoop, hw, hi, lastNonEmptyAux] using ih (i + 1) _ _

theorem synthLoop_err (sr total : ℕ) (e : Env) :
    ∀ (fs : List InferResult) (i k : ℕ) (j : JobRecord),
      (synthLoop sr total e i k j fs).err =
        if fs.all isWavB then Option.none else some "infer failed" := by
  intro fs
  induction fs with
  | nil => intro i k j; simp [synthLoop]
  | cons f fs ih =>
    intro i k j
    match f with
    | InferResult.raises => simp [synthLoop, isWavB]
    | InferResult.wav w =>
      by_cases hw : w = []
      · simpa [synthLoop, hw, isWavB] using ih (i + 1) k _
      · by_cases hi : i < total <;>
          simpa [synthLoop, hw, hi, isWavB] using ih (i + 1) _ _

theorem synthLoop_wavs (sr total : ℕ) (e : Env) :
    ∀ (fs : List InferResult) (i k : ℕ) (j : JobRecord),
      fs.all isWavB = true →
      (synthLoop sr total e i k j fs).wavs = collectWavs fs := by
  intro fs
  induction fs with
  | nil => intro i k j _; simp [synthLoop, collectWavs]
  | cons f fs ih =>
    intro i k j hall
    match f with
    | InferResult.raises =>
      rw [List.all_cons] at hall
      exact absurd hall (by simp [isWavB])
    | InferResult.wav w =>
      have hwv : isWavB (InferResult.wav w) = true := rfl
      rw [List.all_cons, hwv, Bool.true_and] at hall
      by_cases hw : w = []
      · simpa [synthLoop, hw, collectWavs] using ih (i + 1) k _ hall
      · by_cases hi : i < total <;>
          simpa [synthLoop, hw, hi, collectWavs] using ih (i + 1) _ _ hall

theorem synthLoop_indep (sr total : ℕ) (e : Env) :
    ∀ (fs : List InferResult) (i k : ℕ) (j j' : JobRecord),
      (synthLoop sr total e i k j fs).tr = (synthLoop sr total e i k j' fs).tr ∧
      (synthLoop sr total e i k j fs).wavs = (synthLoop sr total e i k j' fs).wavs ∧
      (synthLoop sr total e i k j fs).k = (synthLoop sr total e i k j' fs).k ∧
      (synthLoop sr total e i k j fs).err = (synthLoop sr total e i k j' fs).err := by
  intro fs
  induction fs with
  | nil => intro i k j j'; simp [synthLoop]
  | cons f fs ih =>
    intro i k j j'
    match f with
    | InferResult.raises => simp [synthLoop]
    | InferResult.wav w =>
      by_cases hw : w = []
      · simpa [synthLoop, hw] using ih (i + 1) k _ _
      · by_cases hi : i < total <;>
          simpa [synthLoop, hw, hi] using ih (i + 1) _ _ _

theorem isInferEv_putPcm (e : Env) (k : ℕ) (seg : List ℤ) :
    isInferEv (putPcmEv e k seg) = false := by
  unfold putPcmEv; split <;> rfl

theorem isInferEv_putSilence (e : Env) (k n : ℕ) :
    isInferEv (putSilenceEv e k n) = false := by
  unfold putSilenceEv; split <;> rfl

theorem isInferEv_inferCall (i : ℕ) : isInferEv (Ev.inferCall i) = true := rfl

theorem isInferEv_chunksDone (i : ℕ) :
    isInferEv (Ev.chunksDoneW i) = false := rfl

theorem synthLoop_inferCount (sr total : ℕ) (e : Env) :
    ∀ (fs : List InferResult) (i k : ℕ) (j : JobRecord),
      inferCount (synthLoop sr total e i k j fs).tr = inferAttempts fs := by
  intro fs
  induction fs with
  | nil => intro i k j; simp [synthLoop, inferAttempts, inferCount]
  | cons f fs ih =>
    intro i k j
    match f with
    | InferResult.raises =>
      simp [synthLoop, inferAttempts, inferCount, List.countP_cons,
            isInferEv_inferCall]
    | InferResult.wav w =>
      by_cases hw : w = []
      · simpa [synthLoop, hw, inferCount, inferAttempts, List.countP_cons,
               isInferEv_inferCall, Nat.add_comm] using ih (i + 1) k _
      · by_cases hi : i < total <;>
          simpa [synthLoop, hw, hi, inferCount, inferAttempts,
                 isInferEv_inferCall, isInferEv_chunksDone, isInferEv_putPcm,
                 isInferEv_putSilence, List.countP_cons, List.countP_append,
                 Nat.add_comm] using ih (i + 1) _ _

theorem putPcmEv_noDrop {e : Env} (h : noDrop e) (k : ℕ) (seg : List ℤ) :
    putPcmEv e k seg = Ev.pushPcm seg := by
  unfold putPcmEv; rw [noDrop_isFull h]; rfl

theorem putSilenceEv_noDrop {e : Env} (h : noDrop e) (k n : ℕ) :
    putSilenceEv e k n = Ev.pushSilence n := by
  unfold putSilenceEv; rw [noDrop_isFull h]; rfl

theorem putEndEv_noDrop {e : Env} (h : noDrop e) (k : ℕ) :
    putEndEv e k = Ev.pushEnd := by
  unfold putEndEv; rw [noDrop_isFull h]; rfl

theorem statusWrites_append (a b : List Ev) :
    statusWrites (a ++ b) = statusWrites a ++ statusWrites b := by
  simp [statusWrites]

theorem endAttempts_append (a b : List Ev) :
    endAttempts (a ++ b) = endAttempts a + endAttempts b := by
  simp [endAttempts]

theorem pushes_append (a b : List Ev) :
    pushes (a ++ b) = pushes a ++ pushes b := by
  simp [pushes]

theorem inferCount_append (a b : List Ev) :
    inferCount (a ++ b) = inferCount a + inferCount b := by
  simp [inferCount]

theorem evStatus_putEnd (e : Env) (k : ℕ) :
    evStatus (putEndEv e k) = Option.none := by
  unfold putEndEv; split <;> rfl

theorem isEndAttempt_putEnd (e : Env) (k : ℕ) :
    isEndAttempt (putEndEv e k) = true := by
  unfold putEndEv; split <;> rfl

theorem isInferEv_putEnd (e : Env) (k : ℕ) :
    isInferEv (putEndEv e k) = false := by
  unfold putEndEv; split <;> rfl

theorem evStatus_statusW (s : Status) : evStatus (Ev.statusW s) = some s := rfl

theorem evStatus_audioPath : evStatus Ev.audioPathW = Option.none := rfl

theorem isEndAttempt_statusW (s : Status) :
    isEndAttempt (Ev.statusW s) = false := rfl

theorem isEndAttempt_audioPath : isEndAttempt Ev.audioPathW = false := rfl

theorem isPushEv_statusW (s : Status) : isPushEv (Ev.statusW s) = false := rfl

theorem isPushEv_audioPath : isPushEv Ev.audioPathW = false := rfl

theorem isPushEv_pushEnd : isPushEv Ev.pushEnd = true := rfl

theorem isInferEv_statusW (s : Status) : isInferEv (Ev.statusW s) = false := rfl

theorem isInferEv_audioPath : isInferEv Ev.audioPathW = false := rfl

theorem synthLoop_pushes (sr total : ℕ) (e : Env) (hnd : noDrop e) :
    ∀ (fs : List InferResult) (i k : ℕ) (j : JobRecord),
      i + fs.length = total + 1 →
      (∀ f ∈ fs, nonEmptyWavB f = true) →
      pushes (synthLoop sr total e i k j fs).tr = expPush sr fs := by
  intro fs
  induction fs with
  | nil => intro i k j _ _; simp [synthLoop, pushes, expPush]
  | cons f fs ih =>
    intro i k j hlen hne
    match f with
    | InferResult.raises =>
      exact absurd (hne _ (List.mem_cons_self _ _)) (by simp [nonEmptyWavB])
    | InferResult.wav w =>
      have hw : ¬ w = [] := by
        have h1 := hne _ (List.mem_cons_self _ _)
        simp [nonEmptyWavB, List.isEmpty_iff] at h1
        exact h1
      have hne' : ∀ f ∈ fs, nonEmptyWavB f = true :=
        fun f hf => hne f (List.mem_cons_of_mem _ hf)
      rcases eq_or_ne fs [] with hfs | hfs
      · subst hfs
        have hi : ¬ i < total := by simp at hlen; omega
        simp [synthLoop, hw, hi, pushes, expPush, putPcmEv_noDrop hnd,
              List.filter_cons, isPushEv]
      · have hi : i < total := by
          have h2 : 1 ≤ fs.length := by
            cases fs with
            | nil => exact absurd rfl hfs
            | cons a l => simp
          simp at hlen; omega
        have hlen' : i + 1 + fs.length = total + 1 := by simp at hlen; omega
        have := ih (i + 1) (k + 2)
          { { j with progress := "Generating chunk " ++ toString i ++ "/" ++
              toString total ++ "..." } with chunks_done := i } hlen' hne'
        simp [synthLoop, hw, hi, pushes, expPush, hfs, putPcmEv_noDrop hnd,
              putSilenceEv_noDrop hnd, List.filter_cons, List.filter_append,
              isPushEv] at this ⊢
        exact this

theorem lastNonEmptyAux_le :
    ∀ (fs : List InferResult) (i acc n : ℕ),
      acc ≤ n → i + fs.length ≤ n + 1 → lastNonEmptyAux i acc fs ≤ n := by
  intro fs
  induction fs with
  | nil => intro i acc n hacc _; simpa [lastNonEmptyAux] using hacc
  | cons f fs ih =>
    intro i acc n hacc hlen
    match f with
    | InferResult.raises => simpa [lastNonEmptyAux] using hacc
    | InferResult.wav w =>
      simp only [lastNonEmptyAux]
      apply ih
      · split
        · exact hacc
        · simp at hlen; omega
      · simp at hlen; omega

theorem lastNonEmptyAux_all :
    ∀ (fs : List InferResult) (i acc : ℕ),
      (∀ f ∈ fs, nonEmptyWavB f = true) →
      lastNonEmptyAux i acc fs = if fs = [] then acc else i + fs.length - 1 := by
  intro fs
  induction fs with
  | nil => intro i acc _; simp [lastNonEmptyAux]
  | cons f fs ih =>
    intro i acc hne
    match f with
    | InferResult.raises =>
      exact absurd (hne _ (List.mem_cons_self _ _)) (by simp [nonEmptyWavB])
    | InferResult.wav w =>
      have hw : ¬ w = [] := by
        have h1 := hne _ (List.mem_cons_self _ _)
        simp [nonEmptyWavB, List.isEmpty_iff] at h1
        exact h1
      have hne' : ∀ f ∈ fs, nonEmptyWavB f = true :=
        fun f hf => hne f (List.mem_cons_of_mem _ hf)
      simp only [lastNonEmptyAux, hw, if_false]
      rw [ih (i + 1) i hne']
      rcases eq_or_ne fs [] with hfs | hfs
      · subst hfs; simp
      · simp only [hfs, if_false]
        have h2 : 1 ≤ fs.length := by
          cases fs with
          | nil => exact absurd rfl hfs
          | cons a l => simp
        rw [if_neg (List.cons_ne_nil (InferResult.wav w) fs)]
        simp only [List.length_cons]
        omega

theorem collectWavs_nil_iff :
    ∀ (fs : List InferResult), fs.all isWavB = true →
      (collectWavs fs = [] ↔ fs.any nonEmptyWavB = false) := by
  intro fs
  induction fs with
  | nil => intro _; simp [collectWavs]
  | cons f fs ih =>
    intro hall
    match f with
    | InferResult.raises =>
      rw [List.all_cons] at hall
      exact absurd hall (by simp [isWavB])
    | InferResult.wav w =>
      have hwv : isWavB (InferResult.wav w) = true := rfl
      rw [List.all_cons, hwv, Bool.true_and] at hall
      by_cases hw : w = []
      · simp [collectWavs, hw, List.any_cons, nonEmptyWavB, ih hall]
      · simp [collectWavs, hw, List.any_cons, nonEmptyWavB, List.isEmpty_iff]

/-! ## Lemmas about the post-loop phase -/

theorem afterLoop_sw (e : Env) (total : ℕ) (r : LoopOut) :
    statusWrites (afterLoop e total r).2 = [(afterLoop e total r).1.status] := by
  obtain ⟨tr, wavs, k, j, err⟩ := r
  rcases err with _ | msg
  · by_cases hw : wavs = []
    · simp [afterLoop, hw, statusWrites, evStatus_statusW, evStatus_audioPath, evStatus_putEnd]
    · by_cases hjf : e.join_fails <;> by_cases hpf : e.persist_fails <;>
        simp [afterLoop, hw, hjf, hpf, exceptEvents, statusWrites, evStatus_statusW,
              evStatus_audioPath, evStatus_putEnd]
  · simp [afterLoop, exceptEvents, statusWrites, evStatus_statusW, evStatus_audioPath, evStatus_putEnd]

theorem afterLoop_status (e : Env) (total : ℕ) (r : LoopOut) :
    (afterLoop e total r).1.status = Status.done ∨
    (afterLoop e total r).1.status = Status.error := by
  obtain ⟨tr, wavs, k, j, err⟩ := r
  rcases err with _ | msg
  · by_cases hw : wavs = []
    · simp [afterLoop, hw]
    · by_cases hjf : e.join_fails <;> by_cases hpf : e.persist_fails <;>
        simp [afterLoop, hw, hjf, hpf, exceptEvents]
  · simp [afterLoop, exceptEvents]

theorem afterLoop_done_iff (e : Env) (total : ℕ) (r : LoopOut) :
    (afterLoop e total r).1.status = Status.done ↔
      (r.err = Option.none ∧ ¬ r.wavs = [] ∧ e.join_fails = false ∧
       e.persist_fails = false) := by
  obtain ⟨tr, wavs, k, j, err⟩ := r
  rcases err with _ | msg
  · by_cases hw : wavs = []
    · simp [afterLoop, hw]
    · by_cases hjf : e.join_fails <;> by_cases hpf : e.persist_fails <;>
        simp [afterLoop, hw, hjf, hpf, exceptEvents]
  · simp [afterLoop, exceptEvents]

theorem afterLoop_endAttempts (e : Env) (total : ℕ) (r : LoopOut) :
    endAttempts (afterLoop e total r).2 =
      if r.err = Option.none ∧ ¬ r.wavs = [] ∧
         (e.join_fails || e.persist_fails) = true
      then 2 else 1 := by
  obtain ⟨tr, wavs, k, j, err⟩ := r
  rcases err with _ | msg
  · by_cases hw : wavs = []
    · simp [afterLoop, hw, endAttempts, List.countP_cons,
            isEndAttempt_statusW, isEndAttempt_audioPath, isEndAttempt_putEnd]
    · by_cases hjf : e.join_fails <;> by_cases hpf : e.persist_fails <;>
        simp [afterLoop, hw, hjf, hpf, exceptEvents, endAttempts,
              List.countP_cons, isEndAttempt_statusW, isEndAttempt_audioPath,
              isEndAttempt_putEnd]
  · simp [afterLoop, exceptEvents, endAttempts, List.countP_cons,
          isEndAttempt_statusW, isEndAttempt_audioPath, isEndAttempt_putEnd]

theorem afterLoop_pushes (e : Env) (hnd : noDrop e) (total : ℕ) (r : LoopOut) :
    pushes (afterLoop e total r).2 =
      if r.err = Option.none ∧ ¬ r.wavs = [] ∧
         (e.join_fails || e.persist_fails) = true
      then [Ev.pushEnd, Ev.pushEnd] else [Ev.pushEnd] := by
  obtain ⟨tr, wavs, k, j, err⟩ := r
  rcases err with _ | msg
  · by_cases hw : wavs = []
    · simp [afterLoop, hw, pushes, List.filter_cons, isPushEv_statusW,
            isPushEv_audioPath, isPushEv_pushEnd, putEndEv_noDrop hnd]
    · by_cases hjf : e.join_fails <;> by_cases hpf : e.persist_fails <;>
        simp [afterLoop, hw, hjf, hpf, exceptEvents, pushes, List.filter_cons,
              isPushEv_statusW, isPushEv_audioPath, isPushEv_pushEnd,
              putEndEv_noDrop hnd]
  · simp [afterLoop, exceptEvents, pushes, List.filter_cons, isPushEv_statusW,
          isPushEv_audioPath, isPushEv_pushEnd, putEndEv_noDrop hnd]

theorem afterLoop_inferCount (e : Env) (total : ℕ) (r : LoopOut) :
    inferCount (afterLoop e total r).2 = 0 := by
  obtain ⟨tr, wavs, k, j, err⟩ := r
  rcases err with _ | msg
  · by_cases hw : wavs = []
    · simp [afterLoop, hw, inferCount, List.countP_cons, isInferEv_statusW,
            isInferEv_audioPath, isInferEv_putEnd]
    · by_cases hjf : e.join_fails <;> by_cases hpf : e.persist_fails <;>
        simp [afterLoop, hw, hjf, hpf, exceptEvents, inferCount,
              List.countP_cons, isInferEv_statusW, isInferEv_audioPath,
              isInferEv_putEnd]
  · simp [afterLoop, exceptEvents, inferCount, List.countP_cons, isInferEv_statusW,
          isInferEv_audioPath, isInferEv_putEnd]

theorem afterLoop_counters (e : Env) (total : ℕ) (r : LoopOut) :
    (afterLoop e total r).1.chunks_done = r.j.chunks_done ∧
    (afterLoop e total r).1.chunks_total = r.j.chunks_total ∧
    (afterLoop e total r).1.cancelled = r.j.cancelled := by
  obtain ⟨tr, wavs, k, j, err⟩ := r
  rcases err with _ | msg
  · by_cases hw : wavs = []
    · simp [afterLoop, hw]
    · by_cases hjf : e.join_fails <;> by_cases hpf : e.persist_fails <;>
        simp [afterLoop, hw, hjf, hpf, exceptEvents]
  · simp [afterLoop, exceptEvents]

theorem afterLoop_done_tr (e : Env) (total : ℕ) (r : LoopOut)
    (h : (afterLoop e total r).1.status = Status.done) :
    (afterLoop e total r).2 =
      [putEndEv e r.k, Ev.audioPathW, Ev.statusW Status.done] := by
  rw [afterLoop_done_iff] at h
  obtain ⟨herr, hw, hjf, hpf⟩ := h
  obtain ⟨tr, wavs, k, j, err⟩ := r
  simp only at herr hw
  subst herr
  simp [afterLoop, hw, hjf, hpf]

theorem afterLoop_j_indep (e : Env) (total : ℕ) (tr : List Ev)
    (wavs : List (List ℚ)) (k : ℕ) (j j' : JobRecord) (err : Option String) :
    (afterLoop e total ⟨tr, wavs, k, j, err⟩).2 =
      (afterLoop e total ⟨tr, wavs, k, j', err⟩).2 := by
  rcases err with _ | msg
  · by_cases hw : wavs = []
    · simp [afterLoop, hw]
    · by_cases hjf : e.join_fails <;> by_cases hpf : e.persist_fails <;>
        simp [afterLoop, hw, hjf, hpf, exceptEvents]
  · simp [afterLoop, exceptEvents]

theorem run_synthesis_split (sr : ℕ) (e : Env) (j0 : JobRecord) :
    (refRaises e = true ∧ ∃ jf,
      jf.status = Status.error ∧ jf.chunks_total = j0.chunks_total ∧
      jf.chunks_done = j0.chunks_done ∧ jf.cancelled = j0.cancelled ∧
      run_synthesis sr e j0 =
        (jf, [Ev.statusW Status.processing, Ev.statusW Status.error,
              putEndEv e 0, Ev.release])) ∨
    (refRaises e = false ∧
      run_synthesis sr e j0 =
        ((afterLoop e e.frags.length (loopRun sr e j0)).1,
         [Ev.statusW Status.processing] ++ refEvs e ++
         [Ev.chunksTotalW e.frags.length] ++ (loopRun sr e j0).tr ++
         (afterLoop e e.frags.length (loopRun sr e j0)).2 ++ [Ev.release])) := by
  obtain ⟨rs, frags, jfl, pfl, fa⟩ := e
  rcases rs with b | b | _
  · cases b
    · right
      exact ⟨rfl, rfl⟩
    · left
      exact ⟨rfl, { j0 with status := Status.error,
                            progress := "Encoding reference audio...",
                            error := some "encode failed" },
             rfl, rfl, rfl, rfl, rfl⟩
  · cases b
    · right
      exact ⟨rfl, rfl⟩
    · left
      exact ⟨rfl, { j0 with status := Status.error,
                            progress := "Loading preset voice...",
                            error := some "lookup failed" },
             rfl, rfl, rfl, rfl, rfl⟩
  · right
    exact ⟨rfl, rfl⟩

theorem evStatus_chunksTotalW (n : ℕ) :
    evStatus (Ev.chunksTotalW n) = Option.none := rfl

theorem evStatus_release : evStatus Ev.release = Option.none := rfl

theorem isEndAttempt_chunksTotalW (n : ℕ) :
    isEndAttempt (Ev.chunksTotalW n) = false := rfl

theorem isEndAttempt_release : isEndAttempt Ev.release = false := rfl

theorem isInferEv_chunksTotalW (n : ℕ) :
    isInferEv (Ev.chunksTotalW n) = false := rfl

theorem isInferEv_release : isInferEv Ev.release = false := rfl

theorem isPushEv_chunksTotalW (n : ℕ) :
    isPushEv (Ev.chunksTotalW n) = false := rfl

theorem isPushEv_release : isPushEv Ev.release = false := rfl

theorem statusWrites_refEvs (e : Env) : statusWrites (refEvs e) = [] := by
  unfold refEvs; split <;> rfl

theorem endAttempts_refEvs (e : Env) : endAttempts (refEvs e) = 0 := by
  unfold refEvs; split <;> rfl

theorem inferCount_refEvs (e : Env) : inferCount (refEvs e) = 0 := by
  unfold refEvs; split <;> rfl

theorem pushes_refEvs (e : Env) : pushes (refEvs e) = [] := by
  unfold refEvs; split <;> rfl

theorem statusWrites_loopRun (sr : ℕ) (e : Env) (j0 : JobRecord) :
    statusWrites (loopRun sr e j0).tr = [] :=
  statusWrites_loop sr e.frags.length e e.frags 1 0 (jAfterRef e j0)

theorem endAttempts_loopRun (sr : ℕ) (e : Env) (j0 : JobRecord) :
    endAttempts (loopRun sr e j0).tr = 0 :=
  endAttempts_loop sr e.frags.length e e.frags 1 0 (jAfterRef e j0)

theorem inferCount_loopRun (sr : ℕ) (e : Env) (j0 : JobRecord) :
    inferCount (loopRun sr e j0).tr = inferAttempts e.frags :=
  synthLoop_inferCount sr e.frags.length e e.frags 1 0 (jAfterRef e j0)

theorem loopRun_err_none_iff (sr : ℕ) (e : Env) (j0 : JobRecord) :
    (loopRun sr e j0).err = Option.none ↔ e.frags.all isWavB = true := by
  unfold loopRun
  rw [synthLoop_err]
  by_cases h : e.frags.all isWavB <;> simp [h]

theorem loopRun_wavs_nil_iff (sr : ℕ) (e : Env) (j0 : JobRecord)
    (hall : e.frags.all isWavB = true) :
    (loopRun sr e j0).wavs = [] ↔ e.frags.any nonEmptyWavB = false := by
  unfold loopRun
  rw [synthLoop_wavs _ _ _ _ _ _ _ hall]
  exact collectWavs_nil_iff e.frags hall

theorem putEndEv_cases (e : Env) (k : ℕ) :
    putEndEv e k = Ev.pushEnd ∨ putEndEv e k = Ev.dropEnd := by
  unfold putEndEv; split
  · right; rfl
  · left; rfl

theorem afterLoop_cond_iff (sr : ℕ) (e : Env) (j0 : JobRecord)
    (hr : refRaises e = false) :
    ((loopRun sr e j0).err = Option.none ∧ ¬ (loopRun sr e j0).wavs = [] ∧
      (e.join_fails || e.persist_fails) = true) ↔ doubleEnd e = true := by
  unfold doubleEnd
  rw [hr]
  constructor
  · rintro ⟨herr, hwv, hb⟩
    have hall := (loopRun_err_none_iff sr e j0).mp herr
    have hany : e.frags.any nonEmptyWavB = true := by
      rcases h : e.frags.any nonEmptyWavB with _ | _
      · exact absurd ((loopRun_wavs_nil_iff sr e j0 hall).mpr h) hwv
      · rfl
    simp [hall, hany, hb]
  · intro h
    simp only [Bool.not_false, Bool.true_and, Bool.and_eq_true] at h
    obtain ⟨⟨hall, hany⟩, hb⟩ := h
    refine ⟨(loopRun_err_none_iff sr e j0).mpr hall, ?_, hb⟩
    intro hnil
    rw [loopRun_wavs_nil_iff sr e j0 hall] at hnil
    rw [hnil] at hany
    exact Bool.false_ne_true hany

theorem afterLoop_tr_congr (e : Env) (total : ℕ) (r r' : LoopOut)
    (hw : r.wavs = r'.wavs) (hk : r.k = r'.k) (he : r.err = r'.err) :
    (afterLoop e total r).2 = (afterLoop e total r').2 := by
  obtain ⟨tr, w, k, j, err⟩ := r
  obtain ⟨tr', w', k', j', err'⟩ := r'
  simp only at hw hk he
  subst hw; subst hk; subst he
  rcases err with _ | msg
  · by_cases hwn : w = []
    · simp [afterLoop, hwn]
    · by_cases hjf : e.join_fails <;> by_cases hpf : e.persist_fails <;>
        simp [afterLoop, hwn, hjf, hpf, exceptEvents]
  · simp [afterLoop, exceptEvents]

/-! ## Run-level projection lemmas -/

theorem run_statusWrites (sr : ℕ) (e : Env) (j0 : JobRecord) :
    statusWrites (run_synthesis sr e j0).2 =
      [Status.processing, (run_synthesis sr e j0).1.status] := by
  rcases run_synthesis_split sr e j0 with ⟨_, jf, hst, _, _, _, heq⟩ | ⟨_, heq⟩
  · rw [heq]
    simp [statusWrites, evStatus_statusW, evStatus_putEnd, evStatus_release, hst]
  · rw [heq]
    simp only [statusWrites_append]
    rw [statusWrites_loopRun, statusWrites_refEvs, afterLoop_sw]
    simp [statusWrites, evStatus_statusW, evStatus_chunksTotalW, evStatus_release]

theorem run_status (sr : ℕ) (e : Env) (j0 : JobRecord) :
    (run_synthesis sr e j0).1.status = Status.done ∨
    (run_synthesis sr e j0).1.status = Status.error := by
  rcases run_synthesis_split sr e j0 with ⟨_, jf, hst, _, _, _, heq⟩ | ⟨_, heq⟩
  · right; rw [heq]; exact hst
  · rw [heq]; exact afterLoop_status e e.frags.length (loopRun sr e j0)

theorem run_done_iff (sr : ℕ) (e : Env) (j0 : JobRecord) :
    (run_synthesis sr e j0).1.status = Status.done ↔
      (refRaises e = false ∧ e.frags.all isWavB = true ∧
       e.frags.any nonEmptyWavB = true ∧ e.join_fails = false ∧
       e.persist_fails = false) := by
  rcases run_synthesis_split sr e j0 with ⟨hr, jf, hst, _, _, _, heq⟩ | ⟨hr, heq⟩
  · rw [heq]
    constructor
    · intro h; rw [hst] at h; exact absurd h (by simp)
    · rintro ⟨hr', _⟩; rw [hr] at hr'; exact absurd hr' (by simp)
  · rw [heq]
    show (afterLoop e e.frags.length (loopRun sr e j0)).1.status = Status.done ↔ _
    rw [afterLoop_done_iff]
    constructor
    · rintro ⟨herr, hwv, hjf, hpf⟩
      have hall := (loopRun_err_none_iff sr e j0).mp herr
      have hany : e.frags.any nonEmptyWavB = true := by
        rcases h : e.frags.any nonEmptyWavB with _ | _
        · exact absurd ((loopRun_wavs_nil_iff sr e j0 hall).mpr h) hwv
        · rfl
      exact ⟨hr, hall, hany, hjf, hpf⟩
    · rintro ⟨_, hall, hany, hjf, hpf⟩
      refine ⟨(loopRun_err_none_iff sr e j0).mpr hall, ?_, hjf, hpf⟩
      intro hnil
      rw [loopRun_wavs_nil_iff sr e j0 hall] at hnil
      rw [hnil] at hany
      exact Bool.false_ne_true hany

theorem run_endAttempts (sr : ℕ) (e : Env) (j0 : JobRecord) :
    endAttempts (run_synthesis sr e j0).2 =
      if doubleEnd e = true then 2 else 1 := by
  rcases run_synthesis_split sr e j0 with ⟨hr, jf, _, _, _, _, heq⟩ | ⟨hr, heq⟩
  · rw [heq]
    have hd : doubleEnd e = false := by simp [doubleEnd, hr]
    simp [hd, endAttempts, List.countP_cons, isEndAttempt_statusW,
          isEndAttempt_putEnd, isEndAttempt_release]
  · rw [heq]
    simp only [endAttempts_append]
    rw [endAttempts_loopRun, endAttempts_refEvs, afterLoop_endAttempts]
    rw [if_congr (afterLoop_cond_iff sr e j0 hr) rfl rfl]
    simp [endAttempts, List.countP_cons, isEndAttempt_statusW,
          isEndAttempt_chunksTotalW, isEndAttempt_release]

theorem run_inferCount (sr : ℕ) (e : Env) (j0 : JobRecord) :
    inferCount (run_synthesis sr e j0).2 =
      if refRaises e = true then 0 else inferAttempts e.frags := by
  rcases run_synthesis_split sr e j0 with ⟨hr, jf, _, _, _, _, heq⟩ | ⟨hr, heq⟩
  · rw [heq]
    simp [hr, inferCount, List.countP_cons, isInferEv_statusW, isInferEv_putEnd,
          isInferEv_release]
  · rw [heq]
    simp only [inferCount_append]
    rw [inferCount_loopRun, inferCount_refEvs, afterLoop_inferCount]
    simp [hr, inferCount, List.countP_cons, isInferEv_statusW,
          isInferEv_chunksTotalW, isInferEv_release]

theorem run_tr_indep (sr : ℕ) (e : Env) (j0 j0' : JobRecord) :
    (run_synthesis sr e j0).2 = (run_synthesis sr e j0').2 := by
  rcases run_synthesis_split sr e j0 with ⟨hr, jf, _, _, _, _, heq⟩ | ⟨hr, heq⟩ <;>
    rcases run_synthesis_split sr e j0' with ⟨hr', jf', _, _, _, _, heq'⟩ | ⟨hr', heq'⟩
  · rw [heq, heq']
  · rw [hr] at hr'; exact absurd hr' (by simp)
  · rw [hr] at hr'; exact absurd hr' (by simp)
  · rw [heq, heq']
    dsimp only
    obtain ⟨htr, hwavs, hk, herr⟩ :=
      synthLoop_indep sr e.frags.length e e.frags 1 0 (jAfterRef e j0)
        (jAfterRef e j0')
    have hA : (afterLoop e e.frags.length (loopRun sr e j0)).2 =
        (afterLoop e e.frags.length (loopRun sr e j0')).2 :=
      afterLoop_tr_congr e e.frags.length _ _ hwavs hk herr
    unfold loopRun at hA ⊢
    rw [htr, hA]

theorem jAfterRef_cancelled (e : Env) (j0 : JobRecord) :
    (jAfterRef e j0).cancelled = j0.cancelled := by
  unfold jAfterRef; split <;> rfl

theorem jAfterRef_chunks_total (e : Env) (j0 : JobRecord) :
    (jAfterRef e j0).chunks_total = e.frags.length := by
  unfold jAfterRef; split <;> rfl

theorem jAfterRef_chunks_done (e : Env) (j0 : JobRecord) :
    (jAfterRef e j0).chunks_done = j0.chunks_done := by
  unfold jAfterRef; split <;> rfl

/-! ## Claim theorems -/

/-- C9 (confirmed): a job's status sequence over its lifetime is a prefix of
pending → processing → (done | error).  The record is created with status
`"pending"` (line 195); the worker then writes `"processing"` (line 274) and
afterwards exactly one terminal write of `"done"` (line 354) or `"error"`
(lines 341, 358): the full sequence of status values ever written is exactly
one of the two three-step chains, so the job never returns to `"pending"`
and never changes status again after `"done"`/`"error"`. -/
theorem c9_status_monotone (sr : ℕ) (e : Env) (j0 : JobRecord) :
    Status.pending :: statusWrites (run_synthesis sr e j0).2 =
      [Status.pending, Status.processing, Status.done] ∨
    Status.pending :: statusWrites (run_synthesis sr e j0).2 =
      [Status.pending, Status.processing, Status.error] := by
  rw [run_statusWrites]
  rcases run_status sr e j0 with h | h <;> rw [h]
  · left; rfl
  · right; rfl

/-- C4 counterexample: the end marker is NOT pushed exactly once on every
execution.  With one fragment producing audio and `sf.write` raising, the
worker pushes the end marker after the loop (line 336) and then the `except`
handler pushes it again (line 362): two end-marker puts in one run. -/
theorem c4_end_marker_pushed_twice :
    endAttempts (run_synthesis 24000
      ⟨RefSource.noRef, [InferResult.wav [1]], false, true, []⟩ initJob).2 = 2 ∧
    (run_synthesis 24000
      ⟨RefSource.noRef, [InferResult.wav [1]], false, true, []⟩ initJob).2 =
      [Ev.statusW Status.processing, Ev.chunksTotalW 1, Ev.inferCall 1,
       Ev.chunksDoneW 1, Ev.pushPcm (pcmSeg [1]), Ev.pushEnd,
       Ev.statusW Status.error, Ev.pushEnd, Ev.release] :=
  ⟨rfl, rfl⟩

/-- C4 amended: every terminating path attempts the end-marker put, and the
number of put attempts is exactly one — except when a failure strikes after
the post-loop push (during joining or persisting), in which case the
`except` handler pushes a second end marker; each attempt is best-effort
(dropped if the queue stays full for the timeout). -/
theorem c4_end_marker_attempt_count (sr : ℕ) (e : Env) (j0 : JobRecord) :
    endAttempts (run_synthesis sr e j0).2 =
      if doubleEnd e = true then 2 else 1 :=
  run_endAttempts sr e j0

/-- C2 counterexample: there is no cancellation support in the code.  With
the job record's (spec-modelled) `cancelled` flag already true when the
worker starts, the worker still calls `tts.infer` for both fragments,
finishes with status `"done"` and records no error — instead of stopping
immediately with a cancellation-specific `"error"` as the claim states. -/
theorem c2_cancelled_flag_ignored :
    (run_synthesis 24000
      ⟨RefSource.noRef, [InferResult.wav [1], InferResult.wav [1]],
       false, false, []⟩
      { initJob with cancelled := true }).1.status = Status.done ∧
    (run_synthesis 24000
      ⟨RefSource.noRef, [InferResult.wav [1], InferResult.wav [1]],
       false, false, []⟩
      { initJob with cancelled := true }).1.error = Option.none ∧
    Ev.inferCall 2 ∈ (run_synthesis 24000
      ⟨RefSource.noRef, [InferResult.wav [1], InferResult.wav [1]],
       false, false, []⟩
      { initJob with cancelled := true }).2 ∧
    inferCount (run_synthesis 24000
      ⟨RefSource.noRef, [InferResult.wav [1], InferResult.wav [1]],
       false, false, []⟩
      { initJob with cancelled := true }).2 = 2 := by
  refine ⟨rfl, rfl, ?_, rfl⟩
  decide

/-- C2 amended: flask_app.py has no cancel endpoint, no `cancelled` field
and no cancellation check: the worker's behaviour is completely independent
of the initial job record (in particular of any cancellation flag), it calls
`tts.infer` once per fragment up to and including the first raising fragment
(all of them when none raises), and it never mutates the (spec-modelled)
`cancelled` flag. -/
theorem c2_no_cancellation_check (sr : ℕ) (e : Env) (j0 j0' : JobRecord) :
    (run_synthesis sr e j0).2 = (run_synthesis sr e j0').2 ∧
    inferCount (run_synthesis sr e j0).2 =
      (if refRaises e = true then 0 else inferAttempts e.frags) ∧
    (run_synthesis sr e j0).1.cancelled = j0.cancelled := by
  refine ⟨run_tr_indep sr e j0 j0', run_inferCount sr e j0, ?_⟩
  rcases run_synthesis_split sr e j0 with ⟨_, jf, _, _, _, hc, heq⟩ | ⟨_, heq⟩
  · rw [heq]; exact hc
  · rw [heq]
    have h1 := (afterLoop_counters e e.frags.length (loopRun sr e j0)).2.2
    have h2 :=
      (synthLoop_j sr e.frags.length e e.frags 1 0 (jAfterRef e j0)).2.2.1
    calc (afterLoop e e.frags.length (loopRun sr e j0)).1.cancelled
        = (loopRun sr e j0).j.cancelled := h1
      _ = (jAfterRef e j0).cancelled := h2
      _ = j0.cancelled := jAfterRef_cancelled e j0

/-- C7 counterexample: when `tts.encode_reference` raises, control jumps to
the `except` handler before reaching the `os.unlink` call (line 289): the
temporary uploaded file is NOT deleted, against the claim that it is deleted
on every outcome. -/
theorem c7_temp_file_leak_on_encode_failure :
    Ev.unlinkTemp ∉ (run_synthesis 24000
      ⟨RefSource.upload true, [], false, false, []⟩ initJob).2 ∧
    (run_synthesis 24000
      ⟨RefSource.upload true, [], false, false, []⟩ initJob).1.status =
      Status.error := by
  refine ⟨?_, rfl⟩
  decide

/-- C7 amended: for a job with an uploaded reference-audio file, the
temporary file is deleted iff `tts.encode_reference` returns normally
(`os.unlink` errors themselves are swallowed); when the encoding call
raises, the file is never deleted. -/
theorem c7_unlink_iff_encode_succeeds (sr : ℕ) (b : Bool)
    (frags : List InferResult) (jfl pfl : Bool) (fa : List Bool)
    (j0 : JobRecord) :
    (Ev.unlinkTemp ∈
      (run_synthesis sr ⟨RefSource.upload b, frags, jfl, pfl, fa⟩ j0).2) ↔
      b = false := by
  cases b
  · simp only [iff_true]
    rcases run_synthesis_split sr ⟨RefSource.upload false, frags, jfl, pfl, fa⟩
        j0 with ⟨hr, _, _, _, _, _, _⟩ | ⟨_, heq⟩
    · exact absurd hr (by simp [refRaises])
    · rw [heq]
      simp [refEvs, List.mem_append]
  · rcases run_synthesis_split sr ⟨RefSource.upload true, frags, jfl, pfl, fa⟩
        j0 with ⟨_, jf, _, _, _, _, heq⟩ | ⟨hr, _⟩
    · rw [heq]
      apply iff_of_false
      · intro hmem
        rcases putEndEv_cases ⟨RefSource.upload true, frags, jfl, pfl, fa⟩ 0
            with h | h <;> rw [h] at hmem <;> simp at hmem
      · simp
    · exact absurd hr (by simp [refRaises])

/-- C10 (confirmed): on the successful path the end-marker put (line 336)
happens before `join_audio_chunks` (line 346), `sf.write` (line 350) and the
`"done"` status write (line 354).  Whenever a run ends with status
`"done"`, its trace is some prefix whose only status write is
`"processing"`, then the end-marker put attempt, then the audio-path write
and the `"done"` write.  Hence the status is never `"done"` before the end
marker is pushed, and a stream consumer can observe end-of-stream while the
status still reads `"processing"`. -/
theorem c10_end_marker_before_done (sr : ℕ) (e : Env) (j0 : JobRecord)
    (h : (run_synthesis sr e j0).1.status = Status.done) :
    ∃ pre mk, (mk = Ev.pushEnd ∨ mk = Ev.dropEnd) ∧
      (run_synthesis sr e j0).2 =
        pre ++ [mk, Ev.audioPathW, Ev.statusW Status.done, Ev.release] ∧
      statusWrites pre = [Status.processing] := by
  rcases run_synthesis_split sr e j0 with ⟨_, jf, hst, _, _, _, heq⟩ | ⟨hr, heq⟩
  · rw [heq] at h
    rw [hst] at h
    exact absurd h (by simp)
  · have hd : (afterLoop e e.frags.length (loopRun sr e j0)).1.status =
        Status.done := by rw [heq] at h; exact h
    have htr := afterLoop_done_tr e e.frags.length (loopRun sr e j0) hd
    refine ⟨[Ev.statusW Status.processing] ++ refEvs e ++
      [Ev.chunksTotalW e.frags.length] ++ (loopRun sr e j0).tr,
      putEndEv e (loopRun sr e j0).k, putEndEv_cases e _, ?_, ?_⟩
    · rw [heq]
      dsimp only
      rw [htr]
      simp [List.append_assoc]
    · simp only [statusWrites_append]
      rw [statusWrites_loopRun, statusWrites_refEvs]
      simp [statusWrites, evStatus_statusW, evStatus_chunksTotalW]

/-- Witness for C10 at a concrete completing run. -/
theorem c10_end_marker_before_done_witness :
    ∃ pre mk, (mk = Ev.pushEnd ∨ mk = Ev.dropEnd) ∧
      (run_synthesis 24000
        ⟨RefSource.noRef, [InferResult.wav [1]], false, false, []⟩
        initJob).2 =
        pre ++ [mk, Ev.audioPathW, Ev.statusW Status.done, Ev.release] ∧
      statusWrites pre = [Status.processing] :=
  c10_end_marker_before_done 24000
    ⟨RefSource.noRef, [InferResult.wav [1]], false, false, []⟩ initJob rfl

/-- C3 counterexample: a job can reach status `"done"` with
`chunks_done < chunks_total`.  With two fragments where the first produces
audio and the second returns an empty waveform, the guard
`if chunk_wav is not None and len(chunk_wav) > 0:` (line 317) skips the
counter write for the second fragment, yet `all_wavs` is non-empty so the
job completes: status `"done"`, `chunks_total = 2`, `chunks_done = 1`. -/
theorem c3_done_with_missing_chunk :
    (run_synthesis 24000
      ⟨RefSource.noRef, [InferResult.wav [1], InferResult.wav []],
       false, false, []⟩ initJob).1.status = Status.done ∧
    (run_synthesis 24000
      ⟨RefSource.noRef, [InferResult.wav [1], InferResult.wav []],
       false, false, []⟩ initJob).1.chunks_total = 2 ∧
    (run_synthesis 24000
      ⟨RefSource.noRef, [InferResult.wav [1], InferResult.wav []],
       false, false, []⟩ initJob).1.chunks_done = 1 :=
  ⟨rfl, rfl, rfl⟩

/-- C3 amended: for every job that reaches status `"done"` (started on a
fresh record with `chunks_done = 0`), `chunks_total` is the number of
fragments, `chunks_done` is the 1-based index of the last fragment that
produced a non-empty waveform — hence `chunks_done ≤ chunks_total`, with
equality when every fragment produces non-empty audio (in particular
whenever the last one does), but strict inequality when trailing fragments
return empty waveforms. -/
theorem c3_done_counters (sr : ℕ) (e : Env) (j0 : JobRecord)
    (h0 : j0.chunks_done = 0)
    (h : (run_synthesis sr e j0).1.status = Status.done) :
    (run_synthesis sr e j0).1.chunks_total = e.frags.length ∧
    (run_synthesis sr e j0).1.chunks_done = lastNonEmpty e.frags ∧
    (run_synthesis sr e j0).1.chunks_done ≤ e.frags.length ∧
    ((∀ f ∈ e.frags, nonEmptyWavB f = true) →
      (run_synthesis sr e j0).1.chunks_done = e.frags.length) := by
  rcases run_synthesis_split sr e j0 with ⟨_, jf, hst, _, _, _, heq⟩ | ⟨hr, heq⟩
  · rw [heq] at h
    rw [hst] at h
    exact absurd h (by simp)
  · rw [heq]
    dsimp only
    obtain ⟨hcd, hct, _⟩ := afterLoop_counters e e.frags.length (loopRun sr e j0)
    obtain ⟨_, hct2, _, _, _, hcd2⟩ :=
      synthLoop_j sr e.frags.length e e.frags 1 0 (jAfterRef e j0)
    have hTot : (afterLoop e e.frags.length (loopRun sr e j0)).1.chunks_total =
        e.frags.length := by
      rw [hct]
      unfold loopRun
      rw [hct2, jAfterRef_chunks_total]
    have hDone : (afterLoop e e.frags.length (loopRun sr e j0)).1.chunks_done =
        lastNonEmpty e.frags := by
      rw [hcd]
      unfold loopRun
      rw [hcd2, jAfterRef_chunks_done, h0]
      rfl
    refine ⟨hTot, hDone, ?_, ?_⟩
    · rw [hDone]
      exact lastNonEmptyAux_le e.frags 1 0 e.frags.length (Nat.zero_le _)
        (by omega)
    · intro hne
      rw [hDone]
      unfold lastNonEmpty
      rw [lastNonEmptyAux_all e.frags 1 0 hne]
      rcases eq_or_ne e.frags [] with hnil | hnil
      · rw [hnil]; rfl
      · rw [if_neg hnil]
        have h2 : 1 ≤ e.frags.length := by
          cases hfr : e.frags with
          | nil => exact absurd hfr hnil
          | cons a l => simp
        omega

/-- Witness for C3's amended statement on a concrete completing run
(two fragments, both non-empty). -/
theorem c3_done_counters_witness :
    initJob.chunks_done = 0 ∧
    (run_synthesis 24000
      ⟨RefSource.noRef, [InferResult.wav [1], InferResult.wav [1]],
       false, false, []⟩ initJob).1.status = Status.done ∧
    ((run_synthesis 24000
      ⟨RefSource.noRef, [InferResult.wav [1], InferResult.wav [1]],
       false, false, []⟩ initJob).1.chunks_total = 2 ∧
     (run_synthesis 24000
      ⟨RefSource.noRef, [InferResult.wav [1], InferResult.wav [1]],
       false, false, []⟩ initJob).1.chunks_done =
        lastNonEmpty [InferResult.wav [1], InferResult.wav [1]] ∧
     (run_synthesis 24000
      ⟨RefSource.noRef, [InferResult.wav [1], InferResult.wav [1]],
       false, false, []⟩ initJob).1.chunks_done ≤ 2 ∧
     ((∀ f ∈ [InferResult.wav ([1] : List ℚ), InferResult.wav [1]],
        nonEmptyWavB f = true) →
      (run_synthesis 24000
        ⟨RefSource.noRef, [InferResult.wav [1], InferResult.wav [1]],
         false, false, []⟩ initJob).1.chunks_done = 2)) :=
  ⟨rfl, rfl,
   c3_done_counters 24000
     ⟨RefSource.noRef, [InferResult.wav [1], InferResult.wav [1]],
      false, false, []⟩ initJob rfl rfl⟩

/-- C5 counterexample: for a job whose single fragment synthesizes a
non-empty waveform but whose `sf.write` raises after the post-loop
end-marker push, the sequence of segments entering the queue is the
fragment's PCM, the end marker, and then a SECOND end marker from the
`except` handler — not "…followed by the end marker" as claimed. -/
theorem c5_extra_end_marker_after_persist_failure :
    pushes (run_synthesis 24000
      ⟨RefSource.noRef, [InferResult.wav [1]], false, true, []⟩ initJob).2 =
      [Ev.pushPcm (pcmSeg [1]), Ev.pushEnd, Ev.pushEnd] ∧
    pushes (run_synthesis 24000
      ⟨RefSource.noRef, [InferResult.wav [1]], false, true, []⟩ initJob).2 ≠
      [Ev.pushPcm (pcmSeg [1]), Ev.pushEnd] := by
  refine ⟨rfl, ?_⟩
  intro hcon
  rw [show pushes (run_synthesis 24000
      ⟨RefSource.noRef, [InferResult.wav [1]], false, true, []⟩ initJob).2 =
      [Ev.pushPcm (pcmSeg [1]), Ev.pushEnd, Ev.pushEnd] from rfl] at hcon
  simp at hcon

/-- C5 amended: provided no put attempt times out, the successful pushes of
a run whose reference resolution succeeds and whose fragments all
synthesize non-empty waveforms are exactly the fragments' PCM segments in
fragment order, one fixed 150 ms silence segment between consecutive
fragments and none after the last, followed by the end marker — plus one
extra end marker exactly when joining or persisting fails afterwards. -/
theorem c5_stream_segment_order (sr : ℕ) (e : Env) (j0 : JobRecord)
    (hnd : noDrop e) (hr : refRaises e = false)
    (hne : ∀ f ∈ e.frags, nonEmptyWavB f = true) :
    pushes (run_synthesis sr e j0).2 =
      expPush sr e.frags ++ [Ev.pushEnd] ++
        (if doubleEnd e = true then [Ev.pushEnd] else []) := by
  rcases run_synthesis_split sr e j0 with ⟨hr', _, _, _, _, _, _⟩ | ⟨_, heq⟩
  · rw [hr] at hr'; exact absurd hr' (by simp)
  · rw [heq]
    dsimp only
    simp only [pushes_append]
    rw [pushes_refEvs, afterLoop_pushes e hnd,
        if_congr (afterLoop_cond_iff sr e j0 hr) rfl rfl]
    have hloop : pushes (loopRun sr e j0).tr = expPush sr e.frags := by
      unfold loopRun
      exact synthLoop_pushes sr e.frags.length e hnd e.frags 1 0
        (jAfterRef e j0) (by omega) hne
    rw [hloop]
    by_cases hd : doubleEnd e = true <;>
      simp [hd, pushes, List.filter_cons, isPushEv_statusW,
            isPushEv_chunksTotalW, isPushEv_release]

/-- Witness for C5's amended statement on a concrete two-fragment run. -/
theorem c5_stream_segment_order_witness :
    noDrop ⟨RefSource.noRef, [InferResult.wav [1], InferResult.wav [1]],
            false, false, []⟩ ∧
    refRaises ⟨RefSource.noRef, [InferResult.wav [1], InferResult.wav [1]],
               false, false, []⟩ = false ∧
    (∀ f ∈ [InferResult.wav ([1] : List ℚ), InferResult.wav [1]],
      nonEmptyWavB f = true) ∧
    pushes (run_synthesis 24000
      ⟨RefSource.noRef, [InferResult.wav [1], InferResult.wav [1]],
       false, false, []⟩ initJob).2 =
      expPush 24000 [InferResult.wav [1], InferResult.wav [1]] ++
        [Ev.pushEnd] ++
        (if doubleEnd ⟨RefSource.noRef,
            [InferResult.wav [1], InferResult.wav [1]], false, false, []⟩ =
            true
         then [Ev.pushEnd] else []) := by
  refine ⟨?_, rfl, ?_, ?_⟩
  · intro b hb; simp at hb
  · decide
  · exact c5_stream_segment_order 24000
      ⟨RefSource.noRef, [InferResult.wav [1], InferResult.wav [1]],
       false, false, []⟩ initJob
      (by intro b hb; simp at hb) rfl (by decide)

/-- C8 (confirmed): line 321,
`(chunk_wav * 32767).clip(-32768, 32767).astype(np.int16)`, multiplies each
normalized sample by 32767, clamps to the signed 16-bit range
`[-32768, 32767]` and truncates toward zero.  On the advertised normalized
range `[-1, 1]` the clamp is inert (the product already lies in
`[-32767, 32767]`), and the resulting integer always fits int16, so the
`astype` cast never wraps. -/
theorem c8_pcm_conversion (x : ℚ) (hlo : -1 ≤ x) (hhi : x ≤ 1) :
    pcm16 x = truncToInt (x * 32767) ∧
    -32768 ≤ pcm16 x ∧ pcm16 x ≤ 32767 := by
  have hv1 : (-32767 : ℚ) ≤ x * 32767 := by nlinarith
  have hv2 : x * 32767 ≤ 32767 := by nlinarith
  have hclip : clip (x * 32767) (-32768) 32767 = x * 32767 := by
    unfold clip
    rw [max_eq_left (by linarith), min_eq_left hv2]
  refine ⟨by unfold pcm16; rw [hclip], ?_, ?_⟩
  · unfold pcm16
    rw [hclip]
    unfold truncToInt
    split
    · have h1 : (0:ℤ) ≤ ⌊x * 32767⌋ := Int.floor_nonneg.mpr (by assumption)
      omega
    · have h1 : ⌈(-32767 : ℚ)⌉ ≤ ⌈x * 32767⌉ := Int.ceil_mono hv1
      have h2 : ⌈(-32767 : ℚ)⌉ = -32767 := rfl
      omega
  · unfold pcm16
    rw [hclip]
    unfold truncToInt
    split
    · have h1 : ⌊x * 32767⌋ ≤ ⌊(32767 : ℚ)⌋ := Int.floor_mono hv2
      have h2 : ⌊(32767 : ℚ)⌋ = 32767 := rfl
      omega
    · have h0 : x * 32767 ≤ 0 := by
        rename_i hneg
        push_neg at hneg
        exact le_of_lt hneg
      have h1 : ⌈x * 32767⌉ ≤ 0 := by
        exact_mod_cast Int.ceil_le.mpr (by exact_mod_cast h0)
      omega

/-- Witness for C8 at the sample value 1. -/
theorem c8_pcm_conversion_witness :
    (-1 : ℚ) ≤ 1 ∧ (1 : ℚ) ≤ 1 ∧
    (pcm16 1 = truncToInt (1 * 32767) ∧
     -32768 ≤ pcm16 1 ∧ pcm16 1 ≤ 32767) :=
  ⟨by decide, by decide, c8_pcm_conversion 1 (by decide) (by decide)⟩

/-! ## Lemmas about the admission state machine -/

theorem isActiveRec_iff (j : JobRecord) :
    isActiveRec j = true ↔
      (j.status = Status.pending ∨ j.status = Status.processing) := by
  cases h : j.status <;> simp [isActiveRec, h]

theorem lookupJob_mem {jobs : List (ℕ × JobRecord)}
    (hnd : (jobs.map Prod.fst).Nodup) {p : ℕ × JobRecord} (hp : p ∈ jobs) :
    lookupJob jobs p.1 = some p.2 := by
  induction jobs with
  | nil => simp at hp
  | cons q qs ih =>
    rw [List.map_cons, List.nodup_cons] at hnd
    rcases List.mem_cons.mp hp with hq | hp'
    · rw [hq]
      simp [lookupJob]
    · have hne : ¬ q.1 = p.1 := by
        intro hq
        exact hnd.1 (by rw [hq]; exact List.mem_map_of_mem Prod.fst hp')
      rw [lookupJob, if_neg hne]
      exact ih hnd.2 hp'

theorem busyCheck_some {jobs : List (ℕ × JobRecord)} {act : Option ℕ}
    {p : String} (hb : busyCheck jobs act = some p) :
    ∃ jid j, act = some jid ∧ lookupJob jobs jid = some j ∧
      (j.status = Status.pending ∨ j.status = Status.processing) ∧
      p = j.progress := by
  rcases act with _ | i
  · simp [busyCheck] at hb
  · rcases hl : lookupJob jobs i with _ | j
    · unfold busyCheck at hb
      dsimp only at hb
      rw [hl] at hb
      simp at hb
    · unfold busyCheck at hb
      dsimp only at hb
      rw [hl] at hb
      dsimp only at hb
      split at hb
      · rename_i hcond
        simp at hb
        exact ⟨i, j, rfl, hl, hcond, hb.symm⟩
      · simp at hb

theorem busyCheck_none_no_active {s : ServerState}
    (hInv : AdmissionInv s)
    (hb : busyCheck s.jobs s.active_job_id = Option.none) :
    ∀ p ∈ s.jobs, isActiveRec p.2 = false := by
  obtain ⟨_, hslot, hnd, _⟩ := hInv
  intro p hp
  by_contra hcon
  rw [Bool.not_eq_false] at hcon
  have hact := (isActiveRec_iff p.2).mp hcon
  have hsl := hslot p hp hact
  unfold busyCheck at hb
  rw [hsl] at hb
  dsimp only at hb
  rw [lookupJob_mem hnd hp] at hb
  dsimp only at hb
  rw [if_pos hact] at hb
  exact Option.some_ne_none _ hb

theorem submit_preserves {s : ServerState} (req : Request)
    (h : AdmissionInv s) : AdmissionInv (submit s req).1 := by
  unfold submit
  by_cases hl : s.model_loaded = false
  · rw [if_pos hl]; exact h
  · rw [if_neg hl]
    rcases hb : busyCheck s.jobs s.active_job_id with _ | p
    · by_cases ht : req.text = ""
      · rw [if_pos ht]; exact h
      · rw [if_neg ht]
        dsimp only
        have hnone := busyCheck_none_no_active h hb
        obtain ⟨hc, hslot, hnd, hfresh⟩ := h
        refine ⟨?_, ?_, ?_, ?_⟩
        · unfold activeCount
          rw [List.countP_append]
          have h0 : (s.jobs.countP fun p => isActiveRec p.2) = 0 :=
            List.countP_eq_zero.mpr fun a ha => by simp [hnone a ha]
          rw [h0]
          simp [initJob, isActiveRec, List.countP_cons]
        · intro p hp hact
          rcases List.mem_append.mp hp with hp' | hp'
          · exact absurd ((isActiveRec_iff p.2).mpr hact)
              (by simp [hnone p hp'])
          · simp at hp'
            rw [hp']
        · rw [List.map_append, List.nodup_append]
          refine ⟨hnd, by simp, ?_⟩
          intro a ha
          obtain ⟨q, hq, hqa⟩ := List.mem_map.mp ha
          simp only [List.map_cons, List.map_nil, List.mem_singleton]
          intro hcontra
          have hlt : q.1 < s.next_id := hfresh q hq
          rw [hqa, hcontra] at hlt
          exact lt_irrefl _ hlt
        · intro p hp
          rcases List.mem_append.mp hp with hp' | hp'
          · exact Nat.lt_succ_of_lt (hfresh p hp')
          · simp at hp'
            rw [hp']
            exact Nat.lt_succ_self _
    · exact h

theorem finishJob_preserves {s : ServerState} (i sr : ℕ) (e : Env)
    (h : AdmissionInv s) : AdmissionInv (finishJob s i sr e) := by
  unfold finishJob
  rcases hl : lookupJob s.jobs i with _ | j
  · exact h
  · dsimp only
    obtain ⟨hc, hslot, hnd, hfresh⟩ := h
    have hnotact : isActiveRec (run_synthesis sr e j).1 = false := by
      rcases run_status sr e j with hs | hs <;> simp [isActiveRec, hs]
    refine ⟨?_, ?_, ?_, ?_⟩
    · have hle : activeCount (updateJob s.jobs i (run_synthesis sr e j).1) ≤
          activeCount s.jobs := by
        unfold activeCount updateJob
        rw [List.countP_map]
        apply List.countP_mono_left
        intro a _ ha
        simp only [Function.comp] at ha
        by_cases hai : a.1 = i
        · rw [if_pos hai] at ha
          simp [hnotact] at ha
        · rw [if_neg hai] at ha
          exact ha
      exact le_trans hle hc
    · intro p hp hact
      obtain ⟨q, hq, hgq⟩ := List.mem_map.mp hp
      by_cases hqi : q.1 = i
      · rw [if_pos hqi] at hgq
        rw [← hgq] at hact
        have := (isActiveRec_iff _).mpr hact
        simp [hnotact] at this
      · rw [if_neg hqi] at hgq
        rw [← hgq] at hact ⊢
        have hsl := hslot q hq hact
        rw [hsl, if_neg (by simp [hqi])]
    · have hkeys : (updateJob s.jobs i (run_synthesis sr e j).1).map Prod.fst =
          s.jobs.map Prod.fst := by
        unfold updateJob
        rw [List.map_map]
        apply List.map_congr_left
        intro a _
        by_cases hai : a.1 = i <;> simp [hai]
      rw [hkeys]
      exact hnd
    · intro p hp
      obtain ⟨q, hq, hgq⟩ := List.mem_map.mp hp
      by_cases hqi : q.1 = i
      · rw [if_pos hqi] at hgq
        rw [← hgq]
        exact hfresh q hq
      · rw [if_neg hqi] at hgq
        rw [← hgq]
        exact hfresh q hq

/-- C1 counterexample: the busy check and the slot assignment are NOT one
atomic critical section — `synthesize` takes `active_lock` once for the
check (lines 157-165), releases it, inserts the record (line 194), and takes
the lock again to set the slot (lines 201-202).  Interleaving two
submissions at these boundaries (check A, check B, insert A, insert B,
slot A, slot B) admits both: both end accepted and two jobs are `"pending"`
simultaneously, refuting "at most one job is pending or processing at any
instant". -/
theorem c1_interleaved_double_admission :
    activeCount (runSched twoSubmitInit [0, 1, 0, 1, 0, 1]).jobs = 2 ∧
    (runSched twoSubmitInit [0, 1, 0, 1, 0, 1]).threads =
      [⟨0, 3, some (SubmitResult.accepted 0)⟩,
       ⟨1, 3, some (SubmitResult.accepted 1)⟩] ∧
    (runSched twoSubmitInit [0, 1, 0, 1, 0, 1]).jobs =
      [(0, initJob), (1, initJob)] := by
  refine ⟨rfl, rfl, rfl⟩

/-- C1 amended: a submission that observes the active-slot job in status
`"pending"`/`"processing"` is rejected busy, carrying that job's current
progress string, and changes nothing; and as long as endpoint executions do
not interleave (each `synthesize` call and each worker completion runs
atomically), the single-active-job invariant is preserved.  The check and
the slot assignment are, however, two separate critical sections, so
interleaved submissions can both be admitted (see the counterexample). -/
theorem c1_sequential_admission (s : ServerState) (req : Request)
    (i sr : ℕ) (e : Env) (hInv : AdmissionInv s) :
    AdmissionInv (submit s req).1 ∧
    AdmissionInv (finishJob s i sr e) ∧
    (∀ p, (submit s req).2 = SubmitResult.busy p →
      (submit s req).1 = s ∧
      ∃ jid j, s.active_job_id = some jid ∧ lookupJob s.jobs jid = some j ∧
        (j.status = Status.pending ∨ j.status = Status.processing) ∧
        p = j.progress) := by
  refine ⟨submit_preserves req hInv, finishJob_preserves i sr e hInv, ?_⟩
  intro p hres
  unfold submit at hres ⊢
  by_cases hl : s.model_loaded = false
  · rw [if_pos hl] at hres
    simp at hres
  · rw [if_neg hl] at hres ⊢
    rcases hb : busyCheck s.jobs s.active_job_id with _ | p'
    · rw [hb] at hres
      dsimp only at hres
      by_cases ht : req.text = ""
      · rw [if_pos ht] at hres
        simp at hres
      · rw [if_neg ht] at hres
        simp at hres
    · rw [hb] at hres
      dsimp only at hres ⊢
      simp at hres
      rw [← hres]
      exact ⟨rfl, busyCheck_some hb⟩

/-- Witness for C1's amended statement at the empty loaded server state. -/
theorem c1_sequential_admission_witness :
    AdmissionInv ⟨true, [], Option.none, 0⟩ ∧
    (AdmissionInv (submit ⟨true, [], Option.none, 0⟩ ⟨"hi", "Binh", false⟩).1 ∧
     AdmissionInv (finishJob ⟨true, [], Option.none, 0⟩ 0 24000
       ⟨RefSource.noRef, [], false, false, []⟩) ∧
     (∀ p, (submit ⟨true, [], Option.none, 0⟩ ⟨"hi", "Binh", false⟩).2 =
        SubmitResult.busy p →
      (submit ⟨true, [], Option.none, 0⟩ ⟨"hi", "Binh", false⟩).1 =
        ⟨true, [], Option.none, 0⟩ ∧
      ∃ jid j, (⟨true, [], Option.none, 0⟩ : ServerState).active_job_id =
          some jid ∧
        lookupJob ([] : List (ℕ × JobRecord)) jid = some j ∧
        (j.status = Status.pending ∨ j.status = Status.processing) ∧
        p = j.progress)) :=
  have hInv0 : AdmissionInv ⟨true, [], Option.none, 0⟩ := by
    refine ⟨by decide, ?_, by simp, ?_⟩ <;> intro p hp <;> simp at hp
  ⟨hInv0, c1_sequential_admission ⟨true, [], Option.none, 0⟩
    ⟨"hi", "Binh", false⟩ 0 24000 ⟨RefSource.noRef, [], false, false, []⟩
    hInv0⟩

/-- C6 counterexample: a submission naming a voice id that no preset
provides is NOT rejected at validation time: `synthesize` never checks the
voice id, so the request is accepted and a job record is created with
status `"pending"` — against the claim that no job ever exists for such a
submission.  (The failure only surfaces later, inside the worker.) -/
theorem c6_unknown_voice_admitted :
    (submit ⟨true, [], Option.none, 0⟩ ⟨"hello", "no-such-voice", false⟩).2 =
      SubmitResult.accepted 0 ∧
    lookupJob (submit ⟨true, [], Option.none, 0⟩
      ⟨"hello", "no-such-voice", false⟩).1.jobs 0 = some initJob ∧
    initJob.status = Status.pending :=
  ⟨rfl, rfl, rfl⟩

/-- C6 amended: at submission time only the text is validated — an empty
text is rejected before any job record is created, while an unknown voice
id passes validation untouched and a `"pending"` record is created and
admitted; the unknown voice surfaces only later, when the worker's
`tts.get_preset_voice` call raises and the job's status becomes
`"error"`. -/
theorem c6_validation_only_empty_text (s : ServerState) (req : Request)
    (hl : s.model_loaded = true)
    (hb : busyCheck s.jobs s.active_job_id = Option.none) :
    (req.text = "" → submit s req = (s, SubmitResult.emptyText)) ∧
    (¬ req.text = "" →
      (submit s req).2 = SubmitResult.accepted s.next_id ∧
      (submit s req).1.jobs = s.jobs ++ [(s.next_id, initJob)]) ∧
    (∀ (sr : ℕ) (frags : List InferResult) (jfl pfl : Bool) (fa : List Bool)
       (j0 : JobRecord),
      (run_synthesis sr ⟨RefSource.preset true, frags, jfl, pfl, fa⟩ j0).1.status =
        Status.error) := by
  refine ⟨?_, ?_, ?_⟩
  · intro ht
    unfold submit
    rw [if_neg (by simp [hl]), hb, if_pos ht]
  · intro ht
    unfold submit
    rw [if_neg (by simp [hl]), hb, if_neg ht]
    exact ⟨rfl, rfl⟩
  · intro sr frags jfl pfl fa j0
    rcases run_synthesis_split sr ⟨RefSource.preset true, frags, jfl, pfl, fa⟩
        j0 with ⟨_, jf, hst, _, _, _, heq⟩ | ⟨hr, _⟩
    · rw [heq]
      exact hst
    · exact absurd hr (by simp [refRaises])

/-- Witness for C6's amended statement at the empty loaded server state. -/
theorem c6_validation_only_empty_text_witness :
    (⟨true, [], Option.none, 0⟩ : ServerState).model_loaded = true ∧
    busyCheck ([] : List (ℕ × JobRecord)) Option.none = Option.none ∧
    ((("" : String) = "" →
      submit ⟨true, [], Option.none, 0⟩ ⟨"", "Binh", false⟩ =
        (⟨true, [], Option.none, 0⟩, SubmitResult.emptyText)) ∧
     (¬ ("" : String) = "" →
      (submit ⟨true, [], Option.none, 0⟩ ⟨"", "Binh", false⟩).2 =
        SubmitResult.accepted 0 ∧
      (submit ⟨true, [], Option.none, 0⟩ ⟨"", "Binh", false⟩).1.jobs =
        [] ++ [(0, initJob)]) ∧
     (∀ (sr : ℕ) (frags : List InferResult) (jfl pfl : Bool) (fa : List Bool)
        (j0 : JobRecord),
       (run_synthesis sr ⟨RefSource.preset true, frags, jfl, pfl, fa⟩
         j0).1.status = Status.error)) :=
  ⟨rfl, rfl, c6_validation_only_empty_text ⟨true, [], Option.none, 0⟩
    ⟨"", "Binh", false⟩ rfl rfl⟩

end VieTTS
